import Mathlib

/-!
Verification of the duplicate-file finder/remover
(`scripts/find_duplicates.py`, `scripts/remove_duplicates.py`).

The two scripts are embedded shallowly:

* file contents are `List Nat` (byte values); an unreadable file carries an
  `Except.error` with the exception message instead of its bytes;
* the `hashlib.md5` streaming digest is modelled by `MD5Ctx` (state = bytes fed
  so far, per the documented `update`/`hexdigest` contract) finalised by a
  concrete MD5 implementation `md5hex`;
* `os.walk` with the in-place `dirs[:]` pruning is `walkDir`;
* the `defaultdict(list)` fingerprint accumulator is the insertion-ordered
  association list built by `addPath`;
* the effectful removal loop of `remove_duplicates` is modelled as a trace of
  `Act`s (report lines plus successful `os.remove`/`os.symlink` calls),
  with the possible `OSError`s of `os.remove` and `os.symlink` supplied by
  oracle functions `removeFail` and `symlinkFail`.
-/

/-- Truncation to a 32-bit word (MD5 arithmetic is modulo `2 ^ 32`). -/
def w32 (x : Nat) : Nat := x % 4294967296

/-- Left rotation of a 32-bit word by `s` bits. -/
def rotl32 (x s : Nat) : Nat :=
  Nat.lor (w32 (Nat.shiftLeft x s)) (Nat.shiftRight x (32 - s))

/-- Bitwise complement on 32-bit words. -/
def not32 (x : Nat) : Nat := Nat.xor x 4294967295

/-- The 64 MD5 round constants `floor (2^32 * |sin (i+1)|)`. -/
def md5K : List Nat :=
  [0xd76aa478, 0xe8c7b756, 0x242070db, 0xc1bdceee,
   0xf57c0faf, 0x4787c62a, 0xa8304613, 0xfd469501,
   0x698098d8, 0x8b44f7af, 0xffff5bb1, 0x895cd7be,
   0x6b901122, 0xfd987193, 0xa679438e, 0x49b40821,
   0xf61e2562, 0xc040b340, 0x265e5a51, 0xe9b6c7aa,
   0xd62f105d, 0x02441453, 0xd8a1e681, 0xe7d3fbc8,
   0x21e1cde6, 0xc33707d6, 0xf4d50d87, 0x455a14ed,
   0xa9e3e905, 0xfcefa3f8, 0x676f02d9, 0x8d2a4c8a,
   0xfffa3942, 0x8771f681, 0x6d9d6122, 0xfde5380c,
   0xa4beea44, 0x4bdecfa9, 0xf6bb4b60, 0xbebfbc70,
   0x289b7ec6, 0xeaa127fa, 0xd4ef3085, 0x04881d05,
   0xd9d4d039, 0xe6db99e5, 0x1fa27cf8, 0xc4ac5665,
   0xf4292244, 0x432aff97, 0xab9423a7, 0xfc93a039,
   0x655b59c3, 0x8f0ccc92, 0xffeff47d, 0x85845dd1,
   0x6fa87e4f, 0xfe2ce6e0, 0xa3014314, 0x4e0811a1,
   0xf7537e82, 0xbd3af235, 0x2ad7d2bb, 0xeb86d391]

/-- The per-round left-rotation amounts of MD5. -/
def md5S : List Nat :=
  [7, 12, 17, 22, 7, 12, 17, 22, 7, 12, 17, 22, 7, 12, 17, 22,
   5, 9, 14, 20, 5, 9, 14, 20, 5, 9, 14, 20, 5, 9, 14, 20,
   4, 11, 16, 23, 4, 11, 16, 23, 4, 11, 16, 23, 4, 11, 16, 23,
   6, 10, 15, 21, 6, 10, 15, 21, 6, 10, 15, 21, 6, 10, 15, 21]

/-- The four 32-bit registers of the MD5 compression function. -/
structure MD5State where
  a : Nat
  b : Nat
  c : Nat
  d : Nat
deriving Repr, DecidableEq

/-- One of the 64 MD5 rounds, `M` being the 16 words of the current block. -/
def md5Round (M : List Nat) (st : MD5State) (i : Nat) : MD5State :=
  let f :=
    if i < 16 then Nat.lor (Nat.land st.b st.c) (Nat.land (not32 st.b) st.d)
    else if i < 32 then Nat.lor (Nat.land st.d st.b) (Nat.land (not32 st.d) st.c)
    else if i < 48 then Nat.xor st.b (Nat.xor st.c st.d)
    else Nat.xor st.c (Nat.lor st.b (not32 st.d))
  let g :=
    if i < 16 then i
    else if i < 32 then (5 * i + 1) % 16
    else if i < 48 then (3 * i + 5) % 16
    else 7 * i % 16
  let tmp := w32 (f + st.a + md5K.getD i 0 + M.getD g 0)
  ⟨st.d, w32 (st.b + rotl32 tmp (md5S.getD i 0)), st.b, st.c⟩

/-- Little-endian word assembled from the 4 bytes starting at offset `4 * j`. -/
def leWord (block : List Nat) (j : Nat) : Nat :=
  block.getD (4 * j) 0 + 256 * block.getD (4 * j + 1) 0 +
    65536 * block.getD (4 * j + 2) 0 + 16777216 * block.getD (4 * j + 3) 0

/-- MD5 compression of one 64-byte block into the running state. -/
def md5Block (st0 : MD5State) (block : List Nat) : MD5State :=
  let M := (List.range 16).map (leWord block)
  let st := (List.range 64).foldl (md5Round M) st0
  ⟨w32 (st0.a + st.a), w32 (st0.b + st.b), w32 (st0.c + st.c), w32 (st0.d + st.d)⟩

/-- MD5 padding: a `0x80` byte, zeros to 56 mod 64, then the 64-bit
little-endian bit length. -/
def md5Pad (msg : List Nat) : List Nat :=
  let n := msg.length
  let zeros := (64 + 56 - (n + 1) % 64) % 64
  msg ++ 0x80 :: (List.replicate zeros 0 ++ (List.range 8).map fun i => n * 8 / 256 ^ i % 256)

/-- Split a list into consecutive chunks of `n` elements (the last chunk may be
shorter); returns `[]` when `n = 0`. This is the byte stream produced by
`iter (lambda : f.read 4096, b ...)` in `get_file_hash`. -/
def chunksOf {α : Type} (n : Nat) (l : List α) : List (List α) :=
  if h : n = 0 then []
  else
    match l with
    | [] => []
    | x :: xs => (x :: xs).take n :: chunksOf n ((x :: xs).drop n)
termination_by l.length
decreasing_by
  rw [List.length_drop]
  exact Nat.sub_lt (List.length_pos.mpr (List.cons_ne_nil x xs)) (Nat.pos_of_ne_zero h)

/-- The MD5 initialisation vector. -/
def md5Init : MD5State := ⟨0x67452301, 0xefcdab89, 0x98badcfe, 0x10325476⟩

/-- The 16 MD5 digest bytes of a byte string. -/
def md5Bytes (msg : List Nat) : List Nat :=
  let fin := (chunksOf 64 (md5Pad msg)).foldl md5Block md5Init
  [fin.a, fin.b, fin.c, fin.d].flatMap fun wrd => (List.range 4).map fun i => wrd / 256 ^ i % 256

/-- The sixteen lowercase hexadecimal digits. -/
def hexDigits : List Char := "0123456789abcdef".data

/-- Lowercase hexadecimal digit of a nibble. -/
def hexChar : Nat → Char
  | 0 => '0' | 1 => '1' | 2 => '2' | 3 => '3'
  | 4 => '4' | 5 => '5' | 6 => '6' | 7 => '7'
  | 8 => '8' | 9 => '9' | 10 => 'a' | 11 => 'b'
  | 12 => 'c' | 13 => 'd' | 14 => 'e' | _ => 'f'

/-- Two lowercase hex digits of a byte. -/
def byteHex (b : Nat) : List Char := [hexChar (b / 16), hexChar (b % 16)]

/-- The lowercase-hex MD5 digest of a byte string: the semantics of
`hashlib.md5 (data).hexdigest ()`. -/
def md5hex (msg : List Nat) : String := String.mk ((md5Bytes msg).flatMap byteHex)

/-- A `hashlib.md5` streaming-digest object. Per the `hashlib` contract,
feeding chunks `a` then `b` is equivalent to feeding `a ++ b`, so the state is
exactly the bytes fed so far. -/
structure MD5Ctx where
  fed : List Nat
deriving Repr, DecidableEq

/-- `hash_md5.update (chunk)`. -/
def MD5Ctx.update (ctx : MD5Ctx) (chunk : List Nat) : MD5Ctx := ⟨ctx.fed ++ chunk⟩

/-- `hash_md5.hexdigest ()`. -/
def MD5Ctx.hexdigest (ctx : MD5Ctx) : String := md5hex ctx.fed

/-- `get_file_hash` of `find_duplicates.py`: fold `update` over the successive
4096-byte chunks of the file's content, then finalise. -/
def get_file_hash (content : List Nat) : String :=
  ((chunksOf 4096 content).foldl MD5Ctx.update ⟨[]⟩).hexdigest

/-- A node of the scanned directory tree. A file's payload is its byte content,
or `Except.error msg` when opening/reading it raises `IOError`/`PermissionError`
with message `msg`. -/
inductive FSEntry : Type where
  | file (name : String) (content : Except String (List Nat))
  | dir (name : String) (entries : List FSEntry)

/-- The regular files listed directly in a directory, as
`(os.path.join (root, filename), content)` pairs, in listing order. -/
def dirFiles (path : String) : List FSEntry → List (String × Except String (List Nat))
  | [] => []
  | .file n c :: rest => (path ++ "/" ++ n, c) :: dirFiles path rest
  | .dir _ _ :: rest => dirFiles path rest

/-- The files yielded by `os.walk` below the subdirectories of the current
directory, after the in-place pruning
`dirs[:] = [d for d in dirs if d not in exclude_dirs]`: a subdirectory whose
name is in `excl` is never recursed into. -/
def walkSub (excl : List String) (path : String) : List FSEntry → List (String × Except String (List Nat))
  | [] => []
  | .file _ _ :: rest => walkSub excl path rest
  | .dir n es :: rest =>
      (if n ∈ excl then []
       else dirFiles (path ++ "/" ++ n) es ++ walkSub excl (path ++ "/" ++ n) es)
        ++ walkSub excl path rest

/-- All files yielded by the pruned `os.walk (directory)` loop shared by both
scripts, in processing order: the current directory's files first, then each
non-excluded subdirectory's subtree. -/
def walkDir (excl : List String) (path : String) (entries : List FSEntry) :
    List (String × Except String (List Nat)) :=
  dirFiles path entries ++ walkSub excl path entries

/-- `hash_dict[file_hash].append (filepath)` on a `defaultdict (list)`,
modelled as an insertion-ordered association list: append to the first entry
with this key, or add a new key at the end. -/
def addPath : List (String × List String) → String → String → List (String × List String)
  | [], h, p => [(h, [p])]
  | (k, ps) :: rest, h, p =>
      if k = h then (k, ps ++ [p]) :: rest else (k, ps) :: addPath rest h p

/-- The accumulator of the scanning loop of `find_duplicates`: the fingerprint
groups, the `file_count`, and the `Error accessing ...` lines printed so far. -/
structure ScanState where
  groups : List (String × List String)
  count : Nat
  errors : List String
deriving Repr, DecidableEq

/-- One iteration of the scanning loop of `find_duplicates`: hash the file and
record it, or catch the `IOError`/`PermissionError` and print an inline error. -/
def scanStep (st : ScanState) : String × Except String (List Nat) → ScanState
  | (p, .ok c) => { st with groups := addPath st.groups (get_file_hash c) p, count := st.count + 1 }
  | (p, .error e) => { st with errors := st.errors ++ ["Error accessing " ++ p ++ ": " ++ e] }

/-- The scanning loop of `find_duplicates` over the walked files. -/
def scanFold (items : List (String × Except String (List Nat))) : ScanState :=
  items.foldl scanStep ⟨[], 0, []⟩

/-- `duplicates = {h : paths for ... if len (paths) > 1}` (dict order is
preserved by the comprehension). -/
def dupOf (groups : List (String × List String)) : List (String × List String) :=
  groups.filter fun g => 1 < g.2.length

/-- The complete standard-output report of `find_duplicates (directory)`, one
string per `print` call (a leading `\n` in the f-string is kept verbatim). -/
def find_duplicates (excl : List String) (directory : String) (entries : List FSEntry) :
    List String :=
  let st := scanFold (walkDir excl directory entries)
  let duplicates := dupOf st.groups
  ("Scanning directory: " ++ directory) :: st.errors
    ++ ["\nScanned " ++ toString st.count ++ " files."]
    ++ (if duplicates.isEmpty then ["No duplicate files found."]
        else ("\nFound " ++ toString duplicates.length ++ " sets of duplicate files:\n")
          :: duplicates.flatMap fun g =>
            ("Duplicate set (hash: " ++ g.1 ++ "):") :: g.2.map (fun p => "  " ++ p) ++ [""])

/-- One iteration of the hashing loop of `remove_duplicates`: identical to the
scan tool's loop except that an `IOError`/`PermissionError` is swallowed by
`continue` with no output at all. -/
def removeScanStep (groups : List (String × List String)) :
    String × Except String (List Nat) → List (String × List String)
  | (p, .ok c) => addPath groups (get_file_hash c) p
  | (_, .error _) => groups

/-- The fingerprint groups built by the hashing loop of `remove_duplicates`. -/
def removeScan (items : List (String × Except String (List Nat))) :
    List (String × List String) :=
  items.foldl removeScanStep []

/-- Stable insertion of a path into a length-sorted list: the new element goes
before the first resident of length greater than or equal to its own. -/
def insertByLen (p : String) : List String → List String
  | [] => [p]
  | q :: qs => if q.length < p.length then q :: insertByLen p qs else p :: q :: qs

/-- `paths.sort (key = lambda p : len (p))`: Python's list sort is a stable
sort on the key, which this stable insertion sort realises. -/
def sortByLen : List String → List String
  | [] => []
  | p :: ps => insertByLen p (sortByLen ps)

/-- The strategy dispatch of `remove_duplicates`: an open string comparison
that sorts by path length for `keep_shortest_path` and otherwise leaves the
list in discovery order; then `keep_file = paths[0]`,
`remove_files = paths[1:]`. -/
def resolveStrategy (strategy : String) (paths : List String) : String × List String :=
  let paths2 := if strategy = "keep_shortest_path" then sortByLen paths else paths
  (paths2.headD "", paths2.tail)

/-- `os.path.dirname`: everything before the final path separator. -/
def dirname (p : String) : String :=
  let parts := p.splitOn "/"
  if parts.length ≤ 1 then "" else String.intercalate "/" parts.dropLast

/-- Path components, dropping empty and `.` components (the normalisation
`os.path.relpath` applies to two paths relative to the same working
directory). -/
def pathComps (p : String) : List String :=
  (p.splitOn "/").filter fun c => c ≠ "" && c ≠ "."

/-- Drop the longest common prefix of two component lists. -/
def dropCommon : List String → List String → List String × List String
  | a :: as, b :: bs => if a = b then dropCommon as bs else (a :: as, b :: bs)
  | as, bs => (as, bs)

/-- `os.path.relpath (path, start)` for paths under one working directory:
ascend out of the distinct suffix of `start`, then descend into the distinct
suffix of `path`. -/
def relpath (path start : String) : String :=
  let rem := dropCommon (pathComps path) (pathComps start)
  let comps := List.replicate rem.2.length ".." ++ rem.1
  if comps.isEmpty then "." else String.intercalate "/" comps

/-- An event of the `remove_duplicates` run: a printed report line, a
successful `os.remove`, or a successful `os.symlink`. -/
inductive Act : Type where
  | print (line : String)
  | removed (path : String)
  | linked (rel : String) (path : String)
deriving Repr, DecidableEq

/-- The events of processing one file slated for removal, given oracles for
the `OSError`s of `os.remove` and `os.symlink`: the dry-run branch only
prints; the live branch removes, then optionally symlinks, one `except`
clause catching either failure. -/
def processFile (removeFail : String → Option String)
    (symlinkFail : String → String → Option String)
    (dryRun symlink : Bool) (keepFile removeFile : String) : List Act :=
  if dryRun then
    if symlink then
      [.print ("  Would remove " ++ removeFile ++ " and create symlink to " ++ keepFile)]
    else
      [.print ("  Would remove " ++ removeFile)]
  else
    match removeFail removeFile with
    | some e => [.print ("  Error removing " ++ removeFile ++ ": " ++ e)]
    | none =>
        [.removed removeFile, .print ("  Removed: " ++ removeFile)]
          ++ if symlink then
              let rel := relpath keepFile (dirname removeFile)
              match symlinkFail rel removeFile with
              | some e => [.print ("  Error removing " ++ removeFile ++ ": " ++ e)]
              | none =>
                  [.linked rel removeFile,
                   .print ("  Created symlink from " ++ removeFile ++ " to " ++ rel)]
            else []

/-- The events of processing one duplicate set in `remove_duplicates`:
strategy dispatch, the two header lines, then each removal candidate in
order, then the trailing blank `print ()`. -/
def processSet (removeFail : String → Option String)
    (symlinkFail : String → String → Option String)
    (dryRun : Bool) (strategy : String) (symlink : Bool)
    (fingerprint : String) (paths : List String) : List Act :=
  let r := resolveStrategy strategy paths
  [.print ("For duplicate set (hash: " ++ fingerprint ++ "):"),
   .print ("  Keeping: " ++ r.1)]
    ++ r.2.flatMap (processFile removeFail symlinkFail dryRun symlink r.1)
    ++ [.print ""]

/-- The full event trace of `remove_duplicates (directory, dry_run, strategy,
symlink, exclude_dirs)`. -/
def remove_duplicates (removeFail : String → Option String)
    (symlinkFail : String → String → Option String)
    (excl : List String) (directory : String)
    (dryRun : Bool) (strategy : String) (symlink : Bool)
    (entries : List FSEntry) : List Act :=
  let duplicates := dupOf (removeScan (walkDir excl directory entries))
  if duplicates.isEmpty then [.print "No duplicate files found."]
  else duplicates.flatMap fun g => processSet removeFail symlinkFail dryRun strategy symlink g.1 g.2

/-- The built-in default exclusion list, declared identically in the
`__main__` block of both scripts. -/
def defaultExcludeDirs : List String := [".git", "node_modules", "__pycache__"]

/-- The effective exclusion list of either entry point: the defaults, with the
`--exclude` names (when given) appended via `exclude_dirs.extend`. -/
def effectiveExcludes (userExcludes : Option (List String)) : List String :=
  match userExcludes with
  | none => defaultExcludeDirs
  | some u => defaultExcludeDirs ++ u

theorem chunksOf_flatten {α : Type} (n : Nat) (hn : n ≠ 0) (l : List α) :
    (chunksOf n l).flatten = l := by
  induction l using chunksOf.induct n with
  | case1 l h => exact absurd h hn
  | case2 h => rw [chunksOf]; simp
  | case3 h x xs ih =>
      rw [chunksOf]
      simp only [dif_neg h, List.flatten_cons, ih]
      exact List.take_append_drop n (x :: xs)

theorem foldl_update_fed (chunks : List (List Nat)) :
    ∀ ctx : MD5Ctx, (chunks.foldl MD5Ctx.update ctx).fed = ctx.fed ++ chunks.flatten := by
  induction chunks with
  | nil => intro ctx; simp
  | cons c cs ih =>
      intro ctx
      simp only [List.foldl_cons, List.flatten_cons, ih, MD5Ctx.update, List.append_assoc]

theorem hexChar_mem (k : Nat) : hexChar k ∈ hexDigits := by
  unfold hexChar
  split <;> decide

theorem mem_md5hex_data (msg : List Nat) (ch : Char) (h : ch ∈ (md5hex msg).data) :
    ch ∈ hexDigits := by
  unfold md5hex at h
  simp only [String.data] at h
  rw [List.mem_flatMap] at h
  obtain ⟨b, -, hb⟩ := h
  unfold byteHex at hb
  simp only [List.mem_cons, List.not_mem_nil, or_false] at hb
  rcases hb with h1 | h1
  · exact h1 ▸ hexChar_mem _
  · exact h1 ▸ hexChar_mem _

/-- C8: the chunked hasher `get_file_hash` — folding the streaming digest over
successive 4096-byte chunks until end-of-file — returns exactly the digest of
the whole byte content in one step, and that fingerprint is a lowercase-hex
string (every character is one of the sixteen lowercase hex digits); being a
function of `content` alone, the result depends only on the file's bytes. -/
theorem get_file_hash_refines_md5hex (content : List Nat) :
    get_file_hash content = md5hex content ∧
    ∀ ch ∈ (get_file_hash content).data, ch ∈ hexDigits := by
  have he : get_file_hash content = md5hex content := by
    unfold get_file_hash MD5Ctx.hexdigest
    rw [foldl_update_fed, chunksOf_flatten 4096 (by decide) content]
    rfl
  exact ⟨he, fun ch hch => mem_md5hex_data content ch (he ▸ hch)⟩

theorem insertByLen_perm (p : String) (l : List String) : List.Perm (insertByLen p l) (p :: l) := by
  induction l with
  | nil => exact List.Perm.refl _
  | cons q qs ih =>
      unfold insertByLen
      split
      · exact (ih.cons q).trans (List.Perm.swap p q qs)
      · exact List.Perm.refl _

theorem sortByLen_perm (l : List String) : List.Perm (sortByLen l) l := by
  induction l with
  | nil => exact List.Perm.refl _
  | cons p ps ih => exact (insertByLen_perm p (sortByLen ps)).trans (ih.cons p)

theorem insertByLen_sorted (p : String) (l : List String)
    (h : List.Pairwise (fun a b : String => a.length ≤ b.length) l) :
    List.Pairwise (fun a b : String => a.length ≤ b.length) (insertByLen p l) := by
  induction l with
  | nil => simp [insertByLen]
  | cons q qs ih =>
      rw [List.pairwise_cons] at h
      unfold insertByLen
      by_cases hlt : q.length < p.length
      · rw [if_pos hlt]
        refine List.pairwise_cons.mpr ⟨?_, ih h.2⟩
        intro r hr
        rcases List.mem_cons.mp ((insertByLen_perm p qs).mem_iff.mp hr) with h3 | hr2
        · subst h3; exact le_of_lt hlt
        · exact h.1 r hr2
      · rw [if_neg hlt]
        refine List.pairwise_cons.mpr ⟨?_, List.pairwise_cons.mpr h⟩
        intro r hr
        rcases List.mem_cons.mp hr with h3 | hr2
        · subst h3; exact Nat.le_of_not_lt hlt
        · exact le_trans (Nat.le_of_not_lt hlt) (h.1 r hr2)

theorem sortByLen_sorted (l : List String) :
    List.Pairwise (fun a b : String => a.length ≤ b.length) (sortByLen l) := by
  induction l with
  | nil => simp [sortByLen]
  | cons p ps ih => exact insertByLen_sorted p (sortByLen ps) ih

theorem insertByLen_filter_eq (p : String) (l : List String) (n : Nat) (hp : p.length = n) :
    (insertByLen p l).filter (fun q => q.length = n) = p :: l.filter (fun q => q.length = n) := by
  induction l with
  | nil => simp [insertByLen, hp]
  | cons q qs ih =>
      unfold insertByLen
      split
      · have hq : ¬ q.length = n := by omega
        simp only [List.filter_cons, decide_eq_true_eq]
        rw [if_neg hq, ih]
        simp [hq]
      · simp [hp]

theorem insertByLen_filter_ne (p : String) (l : List String) (n : Nat) (hp : ¬ p.length = n) :
    (insertByLen p l).filter (fun q => q.length = n) = l.filter (fun q => q.length = n) := by
  induction l with
  | nil => simp [insertByLen, hp]
  | cons q qs ih =>
      unfold insertByLen
      split
      · simp only [List.filter_cons, decide_eq_true_eq]
        rw [ih]
      · simp [hp]

theorem sortByLen_filter (l : List String) (n : Nat) :
    (sortByLen l).filter (fun q => q.length = n) = l.filter (fun q => q.length = n) := by
  induction l with
  | nil => rfl
  | cons p ps ih =>
      show (insertByLen p (sortByLen ps)).filter _ = _
      by_cases hp : p.length = n
      · rw [insertByLen_filter_eq p _ n hp, ih]
        simp [hp]
      · rw [insertByLen_filter_ne p _ n hp, ih]
        simp [hp]

theorem head_filter_head? (s : List String) (pred : String → Bool) (k : String)
    (hs : s.head? = some k) (hk : pred k = true) : (s.filter pred).head? = some k := by
  cases s with
  | nil => cases hs
  | cons a t =>
      cases hs
      simp [List.filter_cons, hk]

/-- C1: for every duplicate set resolved with `keep_shortest_path`, the kept
file is the head of the stable length-sort of the discovered paths and the
removed files are the remainder in sorted order; the kept path's length is
less than or equal to every member's length; the sort is stable (each length
class keeps its discovery order), so the kept path is the earliest-discovered
among the members of minimal length. -/
theorem keep_shortest_path_spec (paths : List String) (hne : paths ≠ []) :
    resolveStrategy "keep_shortest_path" paths
        = ((sortByLen paths).headD "", (sortByLen paths).tail) ∧
    (sortByLen paths).headD "" :: (sortByLen paths).tail = sortByLen paths ∧
    List.Perm (sortByLen paths) paths ∧
    List.Pairwise (fun a b : String => a.length ≤ b.length) (sortByLen paths) ∧
    (∀ q ∈ paths, ((sortByLen paths).headD "").length ≤ q.length) ∧
    (∀ n, (sortByLen paths).filter (fun q => q.length = n)
        = paths.filter (fun q => q.length = n)) ∧
    (sortByLen paths).head?
        = (paths.filter fun q => paths.all fun r => q.length ≤ r.length).head? := by
  have hperm := sortByLen_perm paths
  have hsorted := sortByLen_sorted paths
  obtain ⟨k, t, hs⟩ : ∃ k t, sortByLen paths = k :: t := by
    cases h : sortByLen paths with
    | nil => exact absurd ((h ▸ hperm).symm.eq_nil) hne
    | cons a b => exact ⟨a, b, rfl⟩
  have hmin : ∀ q ∈ paths, k.length ≤ q.length := by
    intro q hq
    have hq2 : q ∈ k :: t := hs ▸ (hperm.mem_iff.mpr hq)
    rcases List.mem_cons.mp hq2 with h3 | h3
    · subst h3; exact le_refl _
    · exact (List.pairwise_cons.mp (hs ▸ hsorted)).1 q h3
  have hkmem : k ∈ paths := hperm.mem_iff.mp (hs ▸ List.mem_cons_self k t)
  have hcong : paths.filter (fun q => paths.all fun r => q.length ≤ r.length)
      = paths.filter (fun q => q.length = k.length) := by
    apply List.filter_congr
    intro q hq
    rw [Bool.eq_iff_iff]
    simp only [List.all_eq_true, decide_eq_true_eq]
    constructor
    · intro hqmin; exact Nat.le_antisymm (hqmin k hkmem) (hmin q hq)
    · intro hqe r hr; rw [hqe]; exact hmin r hr
  refine ⟨by simp [resolveStrategy], by rw [hs]; rfl, hperm, hsorted, ?_, sortByLen_filter paths, ?_⟩
  · intro q hq; rw [hs]; exact hmin q hq
  · calc (sortByLen paths).head? = some k := by rw [hs]; rfl
      _ = ((sortByLen paths).filter (fun q => q.length = k.length)).head? :=
          (head_filter_head? _ _ k (by rw [hs]; rfl) (by simp)).symm
      _ = (paths.filter (fun q => q.length = k.length)).head? := by rw [sortByLen_filter]
      _ = (paths.filter fun q => paths.all fun r => q.length ≤ r.length).head? := by rw [hcong]

theorem keep_shortest_path_spec_witness :
    (["./b/xx", "./a/y"] : List String) ≠ [] ∧
    resolveStrategy "keep_shortest_path" ["./b/xx", "./a/y"] = ("./a/y", ["./b/xx"]) := by
  refine ⟨by decide, ?_⟩
  have h := keep_shortest_path_spec ["./b/xx", "./a/y"] (by decide)
  rw [h.1]
  decide

/-- Reachability of a file by the pruned walk: a file is found at `p` iff some
chain of directories, none of whose names is excluded, leads from the scan
root to a directory listing it. -/
inductive Finds (excl : List String) : String → List FSEntry → String → Except String (List Nat) → Prop
  | here (path : String) (entries : List FSEntry) (n : String) (c : Except String (List Nat))
      (hmem : FSEntry.file n c ∈ entries) : Finds excl path entries (path ++ "/" ++ n) c
  | deeper (path : String) (entries : List FSEntry) (n : String) (es : List FSEntry)
      (p : String) (c : Except String (List Nat))
      (hmem : FSEntry.dir n es ∈ entries) (hni : n ∉ excl)
      (hf : Finds excl (path ++ "/" ++ n) es p c) : Finds excl path entries p c

theorem mem_dirFiles (path : String) (entries : List FSEntry) (p : String)
    (c : Except String (List Nat)) :
    (p, c) ∈ dirFiles path entries ↔ ∃ n, FSEntry.file n c ∈ entries ∧ p = path ++ "/" ++ n := by
  induction entries with
  | nil => simp [dirFiles]
  | cons e rest ih =>
      cases e with
      | file n2 c2 =>
          simp only [dirFiles, List.mem_cons, ih, Prod.mk.injEq, FSEntry.file.injEq]
          constructor
          · rintro (⟨hp, hc⟩ | ⟨n, hn, hp⟩)
            · exact ⟨n2, Or.inl ⟨rfl, hc⟩, hp⟩
            · exact ⟨n, Or.inr hn, hp⟩
          · rintro ⟨n, ⟨hn, hc⟩ | hn, hp⟩
            · subst hn; subst hc; exact Or.inl ⟨hp, rfl⟩
            · exact Or.inr ⟨n, hn, hp⟩
      | dir n2 es2 =>
          simp only [dirFiles, ih, List.mem_cons]
          constructor
          · rintro ⟨n, hn, hp⟩; exact ⟨n, Or.inr hn, hp⟩
          · rintro ⟨n, hn | hn, hp⟩
            · cases hn
            · exact ⟨n, hn, hp⟩

theorem mem_walkSub (excl : List String) (path p : String) (c : Except String (List Nat))
    (entries : List FSEntry) :
    (p, c) ∈ walkSub excl path entries ↔
      ∃ n es, FSEntry.dir n es ∈ entries ∧ n ∉ excl ∧
        (p, c) ∈ walkDir excl (path ++ "/" ++ n) es := by
  induction entries with
  | nil => simp [walkSub]
  | cons e rest ih =>
      cases e with
      | file n2 c2 =>
          simp only [walkSub, ih, List.mem_cons]
          constructor
          · rintro ⟨n, es, hn, hni, hw⟩; exact ⟨n, es, Or.inr hn, hni, hw⟩
          · rintro ⟨n, es, hn | hn, hni, hw⟩
            · cases hn
            · exact ⟨n, es, hn, hni, hw⟩
      | dir n2 es2 =>
          simp only [walkSub, List.mem_append, ih, List.mem_cons]
          by_cases hx : n2 ∈ excl
          · rw [if_pos hx]
            simp only [List.not_mem_nil, false_or]
            constructor
            · rintro ⟨n, es, hn, hni, hw⟩; exact ⟨n, es, Or.inr hn, hni, hw⟩
            · rintro ⟨n, es, hn | hn, hni, hw⟩
              · injection hn with h1 h2; subst h1; exact absurd hx hni
              · exact ⟨n, es, hn, hni, hw⟩
          · rw [if_neg hx]
            constructor
            · rintro (hw | ⟨n, es, hn, hni, hw⟩)
              · exact ⟨n2, es2, Or.inl rfl, hx, hw⟩
              · exact ⟨n, es, Or.inr hn, hni, hw⟩
            · rintro ⟨n, es, hn | hn, hni, hw⟩
              · injection hn with h1 h2; subst h1; subst h2; exact Or.inl hw
              · exact Or.inr ⟨n, es, hn, hni, hw⟩

theorem mem_walkDir_iff_finds_fuel (excl : List String) (k : Nat) :
    ∀ (entries : List FSEntry), sizeOf entries ≤ k →
      ∀ (path p : String) (c : Except String (List Nat)),
        ((p, c) ∈ walkDir excl path entries ↔ Finds excl path entries p c) := by
  induction k with
  | zero =>
      intro entries h
      cases entries with
      | nil => simp at h
      | cons e rest => simp at h
  | succ k ih =>
      intro entries hsz path p c
      rw [walkDir, List.mem_append, mem_dirFiles, mem_walkSub]
      constructor
      · rintro (⟨n, hn, rfl⟩ | ⟨n, es, hmem, hni, hsub⟩)
        · exact Finds.here path entries n c hn
        · have hes : sizeOf es ≤ k := by
            have h1 := List.sizeOf_lt_of_mem hmem
            rw [FSEntry.dir.sizeOf_spec] at h1
            omega
          exact Finds.deeper path entries n es p c hmem hni ((ih es hes _ p c).mp hsub)
      · intro hf
        cases hf with
        | here _ _ n _ hmem => exact Or.inl ⟨n, hmem, rfl⟩
        | deeper _ _ n es _ _ hmem hni hf2 =>
            have hes : sizeOf es ≤ k := by
              have h1 := List.sizeOf_lt_of_mem hmem
              rw [FSEntry.dir.sizeOf_spec] at h1
              omega
            exact Or.inr ⟨n, es, hmem, hni, (ih es hes _ p c).mpr hf2⟩

theorem dirFiles_drop_dir (path : String) (pre post : List FSEntry) (n : String)
    (es : List FSEntry) :
    dirFiles path (pre ++ FSEntry.dir n es :: post) = dirFiles path (pre ++ post) := by
  induction pre with
  | nil => simp [dirFiles]
  | cons e rest ih => cases e <;> simp [dirFiles, ih]

theorem walkSub_drop_excluded (excl : List String) (path : String) (pre post : List FSEntry)
    (n : String) (es : List FSEntry) (hn : n ∈ excl) :
    walkSub excl path (pre ++ FSEntry.dir n es :: post) = walkSub excl path (pre ++ post) := by
  induction pre with
  | nil => simp [walkSub, hn]
  | cons e rest ih => cases e <;> simp [walkSub, ih]

/-- C6: a directory whose base name is in the exclusion set is never descended
into: deleting such a directory (at any position, holding any subtree) from a
directory listing leaves the walk output unchanged, so no file anywhere
beneath it reaches the hashing/grouping/reporting/removal stages of either
tool; in general a file is yielded by the shared walk exactly when a chain of
non-excluded directories leads from the scan root to it. -/
theorem excluded_dir_never_walked (excl : List String) (path : String)
    (pre post : List FSEntry) (n : String) (es : List FSEntry) (hn : n ∈ excl) :
    walkDir excl path (pre ++ FSEntry.dir n es :: post) = walkDir excl path (pre ++ post) ∧
    ∀ (entries : List FSEntry) (p : String) (c : Except String (List Nat)),
      ((p, c) ∈ walkDir excl path entries ↔ Finds excl path entries p c) := by
  constructor
  · unfold walkDir
    rw [dirFiles_drop_dir, walkSub_drop_excluded excl path pre post n es hn]
  · intro entries p c
    exact mem_walkDir_iff_finds_fuel excl (sizeOf entries) entries (le_refl _) path p c

theorem excluded_dir_never_walked_witness :
    ".git" ∈ defaultExcludeDirs ∧
    walkDir defaultExcludeDirs "."
        ([FSEntry.file "a" (Except.ok [1])]
          ++ FSEntry.dir ".git" [FSEntry.file "cfg" (Except.ok [1])] :: [])
      = walkDir defaultExcludeDirs "." ([FSEntry.file "a" (Except.ok [1])] ++ []) :=
  ⟨by decide,
   (excluded_dir_never_walked defaultExcludeDirs "." [FSEntry.file "a" (Except.ok [1])] []
      ".git" [FSEntry.file "cfg" (Except.ok [1])] (by decide)).1⟩

/-- The inline error lines the scan tool prints for the unreadable files of a
walked sequence, in encounter order. -/
def errLines (items : List (String × Except String (List Nat))) : List String :=
  items.filterMap fun it =>
    match it.2 with
    | .error e => some ("Error accessing " ++ it.1 ++ ": " ++ e)
    | .ok _ => none

/-- The number of successfully hashed files of a walked sequence. -/
def okCount (items : List (String × Except String (List Nat))) : Nat :=
  (items.filter fun it => it.2.isOk).length

/-- The paths of the readable walked files whose content hashes to `h`, in
discovery order. -/
def okPathsWith (items : List (String × Except String (List Nat))) (h : String) : List String :=
  items.filterMap fun it =>
    match it.2 with
    | .ok c => if get_file_hash c = h then some it.1 else none
    | .error _ => none

/-- The path list stored under fingerprint `h` (first matching entry), `[]`
when absent. -/
def getGroup (g : List (String × List String)) (h : String) : List String :=
  ((g.find? fun x => x.1 = h).map Prod.snd).getD []

/-- The total number of stored paths across all fingerprint groups. -/
def sumLens (g : List (String × List String)) : Nat :=
  (g.map fun x => x.2.length).sum

theorem getGroup_addPath (g : List (String × List String)) (h p h2 : String) :
    getGroup (addPath g h p) h2
      = if h2 = h then getGroup g h2 ++ [p] else getGroup g h2 := by
  induction g with
  | nil =>
      by_cases he : h2 = h
      · subst he; simp [addPath, getGroup, List.find?]
      · simp [addPath, getGroup, List.find?, he, Ne.symm he]
  | cons kv rest ih =>
      obtain ⟨k, ps⟩ := kv
      unfold addPath
      by_cases hk : k = h
      · subst hk
        rw [if_pos rfl]
        by_cases he : h2 = k
        · subst he; simp [getGroup, List.find?]
        · have hd : (decide (k = h2)) = false := decide_eq_false fun hx => he hx.symm
          simp [getGroup, List.find?, hd, he]
      · rw [if_neg hk]
        by_cases he : h2 = k
        · subst he
          simp [getGroup, List.find?, if_neg hk]
        · have hd : (decide (k = h2)) = false := decide_eq_false fun hx => he hx.symm
          unfold getGroup
          simp only [List.find?, hd]
          exact ih

theorem sumLens_addPath (g : List (String × List String)) (h p : String) :
    sumLens (addPath g h p) = sumLens g + 1 := by
  induction g with
  | nil => simp [addPath, sumLens]
  | cons kv rest ih =>
      obtain ⟨k, ps⟩ := kv
      unfold addPath
      by_cases hk : k = h
      · subst hk
        rw [if_pos rfl]
        simp only [sumLens, List.map_cons, List.sum_cons, List.length_append,
          List.length_singleton]
        omega
      · rw [if_neg hk]
        simp only [sumLens, List.map_cons, List.sum_cons] at *
        omega

theorem keys_addPath (g : List (String × List String)) (h p : String) :
    (addPath g h p).map Prod.fst
      = if h ∈ g.map Prod.fst then g.map Prod.fst else g.map Prod.fst ++ [h] := by
  induction g with
  | nil => simp [addPath]
  | cons kv rest ih =>
      obtain ⟨k, ps⟩ := kv
      unfold addPath
      by_cases hk : k = h
      · subst hk; simp
      · rw [if_neg hk]
        simp only [List.map_cons, List.mem_cons, ih]
        by_cases hm : h ∈ rest.map Prod.fst
        · simp [hm, hk]
        · simp [hm, hk, Ne.symm hk]

theorem nodup_keys_addPath (g : List (String × List String)) (h p : String)
    (hnd : (g.map Prod.fst).Nodup) : ((addPath g h p).map Prod.fst).Nodup := by
  rw [keys_addPath]
  by_cases hm : h ∈ g.map Prod.fst
  · rwa [if_pos hm]
  · rw [if_neg hm]
    simpa using List.Nodup.append hnd (List.nodup_singleton h) (by simpa using hm)

theorem mem_addPath (g : List (String × List String)) (h p h2 : String) (ps : List String)
    (hmem : (h2, ps) ∈ addPath g h p) :
    ∀ q ∈ ps, (q = p ∧ h2 = h) ∨ ∃ ps2, (h2, ps2) ∈ g ∧ q ∈ ps2 := by
  induction g generalizing ps with
  | nil =>
      simp only [addPath, List.mem_singleton, Prod.mk.injEq] at hmem
      intro q hq
      rw [hmem.2] at hq
      simp only [List.mem_singleton] at hq
      exact Or.inl ⟨hq, hmem.1⟩
  | cons kv rest ih =>
      obtain ⟨k, kps⟩ := kv
      unfold addPath at hmem
      by_cases hk : k = h
      · subst hk
        rw [if_pos rfl] at hmem
        rcases List.mem_cons.mp hmem with he | he
        · rw [Prod.mk.injEq] at he
          obtain ⟨rfl, rfl⟩ := he
          intro q hq
          rcases List.mem_append.mp hq with hq2 | hq2
          · exact Or.inr ⟨kps, List.mem_cons_self _ _, hq2⟩
          · simp only [List.mem_singleton] at hq2
            exact Or.inl ⟨hq2, rfl⟩
        · intro q hq
          exact Or.inr ⟨ps, List.mem_cons_of_mem _ he, hq⟩
      · rw [if_neg hk] at hmem
        rcases List.mem_cons.mp hmem with he | he
        · rw [Prod.mk.injEq] at he
          obtain ⟨rfl, rfl⟩ := he
          intro q hq
          exact Or.inr ⟨ps, List.mem_cons_self _ _, hq⟩
        · intro q hq
          rcases ih ps he q hq with h1 | ⟨ps2, hp2, hq2⟩
          · exact Or.inl h1
          · exact Or.inr ⟨ps2, List.mem_cons_of_mem _ hp2, hq2⟩

theorem errLines_cons_ok (p2 : String) (c : List Nat)
    (rest : List (String × Except String (List Nat))) :
    errLines ((p2, Except.ok c) :: rest) = errLines rest := by
  simp [errLines, List.filterMap_cons]

theorem errLines_cons_err (p2 e : String) (rest : List (String × Except String (List Nat))) :
    errLines ((p2, Except.error e) :: rest)
      = ("Error accessing " ++ p2 ++ ": " ++ e) :: errLines rest := by
  simp [errLines, List.filterMap_cons]

theorem okCount_cons_ok (p2 : String) (c : List Nat)
    (rest : List (String × Except String (List Nat))) :
    okCount ((p2, Except.ok c) :: rest) = okCount rest + 1 := by
  simp [okCount, List.filter_cons, Except.isOk, Except.toBool]

theorem okCount_cons_err (p2 e : String) (rest : List (String × Except String (List Nat))) :
    okCount ((p2, Except.error e) :: rest) = okCount rest := by
  simp [okCount, List.filter_cons, Except.isOk, Except.toBool]

theorem okPathsWith_cons_ok (p2 : String) (c : List Nat)
    (rest : List (String × Except String (List Nat))) (h : String) :
    okPathsWith ((p2, Except.ok c) :: rest) h
      = if get_file_hash c = h then p2 :: okPathsWith rest h else okPathsWith rest h := by
  unfold okPathsWith
  rw [List.filterMap_cons]
  by_cases hh : get_file_hash c = h
  · simp [hh]
  · simp [hh]

theorem okPathsWith_cons_err (p2 e : String) (rest : List (String × Except String (List Nat)))
    (h : String) : okPathsWith ((p2, Except.error e) :: rest) h = okPathsWith rest h := by
  simp [okPathsWith, List.filterMap_cons]

theorem scanFold_errors (items : List (String × Except String (List Nat))) :
    ∀ st : ScanState, (items.foldl scanStep st).errors = st.errors ++ errLines items := by
  induction items with
  | nil => intro st; simp [errLines]
  | cons it rest ih =>
      intro st
      obtain ⟨p2, c2⟩ := it
      cases c2 with
      | ok c => simp [scanStep, ih, errLines_cons_ok]
      | error e => simp [scanStep, ih, errLines_cons_err]

theorem scanFold_count (items : List (String × Except String (List Nat))) :
    ∀ st : ScanState, (items.foldl scanStep st).count = st.count + okCount items := by
  induction items with
  | nil => intro st; simp [okCount]
  | cons it rest ih =>
      intro st
      obtain ⟨p2, c2⟩ := it
      cases c2 with
      | ok c =>
          simp only [List.foldl_cons, scanStep, ih, okCount_cons_ok]
          omega
      | error e =>
          simp only [List.foldl_cons, scanStep, ih, okCount_cons_err]

theorem scanFold_getGroup (items : List (String × Except String (List Nat))) :
    ∀ (st : ScanState) (h : String),
      getGroup (items.foldl scanStep st).groups h = getGroup st.groups h ++ okPathsWith items h := by
  induction items with
  | nil => intro st h; simp [okPathsWith]
  | cons it rest ih =>
      intro st h
      obtain ⟨p2, c2⟩ := it
      cases c2 with
      | ok c =>
          simp only [List.foldl_cons, scanStep, ih, okPathsWith_cons_ok]
          rw [getGroup_addPath]
          by_cases hh : h = get_file_hash c
          · rw [if_pos hh, if_pos hh.symm, List.append_assoc, List.singleton_append]
          · rw [if_neg hh, if_neg (fun hx => hh hx.symm)]
      | error e =>
          simp only [List.foldl_cons, scanStep, ih, okPathsWith_cons_err]

theorem scanFold_sumLens (items : List (String × Except String (List Nat))) :
    ∀ st : ScanState, sumLens (items.foldl scanStep st).groups = sumLens st.groups + okCount items := by
  induction items with
  | nil => intro st; simp [okCount]
  | cons it rest ih =>
      intro st
      obtain ⟨p2, c2⟩ := it
      cases c2 with
      | ok c =>
          simp only [List.foldl_cons, scanStep, ih, okCount_cons_ok, sumLens_addPath]
          omega
      | error e =>
          simp only [List.foldl_cons, scanStep, ih, okCount_cons_err]

theorem scanFold_nodup_keys (items : List (String × Except String (List Nat))) :
    ∀ st : ScanState, (st.groups.map Prod.fst).Nodup →
      ((items.foldl scanStep st).groups.map Prod.fst).Nodup := by
  induction items with
  | nil => intro st hnd; exact hnd
  | cons it rest ih =>
      intro st hnd
      obtain ⟨p2, c2⟩ := it
      cases c2 with
      | ok c => exact ih _ (nodup_keys_addPath _ _ _ hnd)
      | error e => exact ih _ hnd

theorem mem_scanFold_groups (items : List (String × Except String (List Nat))) :
    ∀ (st : ScanState) (h2 : String) (ps : List String), (h2, ps) ∈ (items.foldl scanStep st).groups →
      ∀ q ∈ ps, (∃ c, (q, Except.ok c) ∈ items ∧ get_file_hash c = h2) ∨
        ∃ ps2, (h2, ps2) ∈ st.groups ∧ q ∈ ps2 := by
  induction items with
  | nil =>
      intro st h2 ps hmem q hq
      exact Or.inr ⟨ps, hmem, hq⟩
  | cons it rest ih =>
      intro st h2 ps hmem q hq
      obtain ⟨p2, c2⟩ := it
      cases c2 with
      | ok c =>
          rcases ih _ h2 ps hmem q hq with ⟨c3, hc3, hh⟩ | ⟨ps2, hp2, hq2⟩
          · exact Or.inl ⟨c3, List.mem_cons_of_mem _ hc3, hh⟩
          · rcases mem_addPath _ _ _ _ _ hp2 q hq2 with ⟨hqp, hh⟩ | ⟨ps3, hp3, hq3⟩
            · exact Or.inl ⟨c, by rw [hqp]; exact List.mem_cons_self _ _, hh.symm⟩
            · exact Or.inr ⟨ps3, hp3, hq3⟩
      | error e =>
          rcases ih _ h2 ps hmem q hq with ⟨c3, hc3, hh⟩ | h1
          · exact Or.inl ⟨c3, List.mem_cons_of_mem _ hc3, hh⟩
          · exact Or.inr h1

theorem snd_unique_of_nodup_fst {β : Type} (items : List (String × β))
    (hnd : (items.map Prod.fst).Nodup) (p : String) (x y : β)
    (hx : (p, x) ∈ items) (hy : (p, y) ∈ items) : x = y := by
  induction items with
  | nil => cases hx
  | cons kv rest ih =>
      obtain ⟨k, kb⟩ := kv
      simp only [List.map_cons, List.nodup_cons] at hnd
      rcases List.mem_cons.mp hx with he1 | he1 <;> rcases List.mem_cons.mp hy with he2 | he2
      · rw [Prod.mk.injEq] at he1 he2
        rw [he1.2, he2.2]
      · rw [Prod.mk.injEq] at he1
        exact absurd (he1.1 ▸ List.mem_map_of_mem Prod.fst he2) hnd.1
      · rw [Prod.mk.injEq] at he2
        exact absurd (he2.1 ▸ List.mem_map_of_mem Prod.fst he1) hnd.1
      · exact ih hnd.2 he1 he2

theorem mem_groups_of_getGroup_ne_nil (g : List (String × List String)) (h : String)
    (hne : getGroup g h ≠ []) : (h, getGroup g h) ∈ g := by
  unfold getGroup at *
  cases hf : g.find? fun x => x.1 = h with
  | none => rw [hf] at hne; simp at hne
  | some kv =>
      have hmem := List.mem_of_find?_eq_some hf
      have hpred := List.find?_some hf
      have hk : kv.1 = h := by simpa using hpred
      obtain ⟨k, ps⟩ := kv
      show (h, ps) ∈ g
      rw [← hk]
      exact hmem

theorem count_okPathsWith_le (items : List (String × Except String (List Nat)))
    (h q : String) : (okPathsWith items h).count q ≤ (items.map Prod.fst).count q := by
  induction items with
  | nil => simp [okPathsWith]
  | cons it rest ih =>
      obtain ⟨p2, c2⟩ := it
      cases c2 with
      | ok c =>
          rw [okPathsWith_cons_ok]
          by_cases hh : get_file_hash c = h
          · rw [if_pos hh]
            simp only [List.map_cons, List.count_cons]
            omega
          · rw [if_neg hh]
            simp only [List.map_cons, List.count_cons]
            omega
      | error e =>
          rw [okPathsWith_cons_err]
          simp only [List.map_cons, List.count_cons]
          omega

theorem mem_okPathsWith (items : List (String × Except String (List Nat))) (p : String)
    (c : List Nat) (hm : (p, Except.ok c) ∈ items) :
    p ∈ okPathsWith items (get_file_hash c) := by
  unfold okPathsWith
  exact List.mem_filterMap.mpr ⟨(p, Except.ok c), hm, by simp⟩

/-- C10: after the scan tool's grouping completes, the fingerprint-to-paths
mapping partitions the successfully hashed files: the scanned-file count
equals the sum of the group sizes, fingerprints are pairwise distinct, every
path stored in a group was a successfully hashed walked file whose content
produces that group's fingerprint, and (when walked paths are distinct, as
they are on a real filesystem) each successfully hashed file lies in exactly
one fingerprint's list and exactly once in it. -/
theorem grouping_partitions (excl : List String) (directory : String) (entries : List FSEntry)
    (hnd : ((walkDir excl directory entries).map Prod.fst).Nodup) :
    (scanFold (walkDir excl directory entries)).count
        = sumLens (scanFold (walkDir excl directory entries)).groups ∧
    ((scanFold (walkDir excl directory entries)).groups.map Prod.fst).Nodup ∧
    (∀ h ps, (h, ps) ∈ (scanFold (walkDir excl directory entries)).groups →
      ∀ q ∈ ps, ∃ c, (q, Except.ok c) ∈ walkDir excl directory entries ∧ get_file_hash c = h) ∧
    (∀ p c, (p, Except.ok c) ∈ walkDir excl directory entries →
      ∃ ps, (get_file_hash c, ps) ∈ (scanFold (walkDir excl directory entries)).groups ∧
        p ∈ ps ∧ ps.count p = 1 ∧
        ∀ h2 ps2, (h2, ps2) ∈ (scanFold (walkDir excl directory entries)).groups →
          p ∈ ps2 → h2 = get_file_hash c ∧ ps2 = ps) := by
  set items := walkDir excl directory entries with hitems
  have hkeys : ((scanFold items).groups.map Prod.fst).Nodup :=
    scanFold_nodup_keys items ⟨[], 0, []⟩ (by simp)
  have hmemg : ∀ h ps, (h, ps) ∈ (scanFold items).groups →
      ∀ q ∈ ps, ∃ c, (q, Except.ok c) ∈ items ∧ get_file_hash c = h := by
    intro h ps hm q hq
    rcases mem_scanFold_groups items ⟨[], 0, []⟩ h ps hm q hq with h1 | ⟨ps2, hp2, -⟩
    · exact h1
    · cases hp2
  refine ⟨?_, hkeys, hmemg, ?_⟩
  · show (items.foldl scanStep ⟨[], 0, []⟩).count
        = sumLens (items.foldl scanStep ⟨[], 0, []⟩).groups
    rw [scanFold_count items ⟨[], 0, []⟩, scanFold_sumLens items ⟨[], 0, []⟩]
    simp [sumLens]
  · intro p c hpc
    have hg : getGroup (scanFold items).groups (get_file_hash c)
        = okPathsWith items (get_file_hash c) := by
      show getGroup (items.foldl scanStep ⟨[], 0, []⟩).groups (get_file_hash c) = _
      rw [scanFold_getGroup items ⟨[], 0, []⟩]
      rfl
    have hpm : p ∈ getGroup (scanFold items).groups (get_file_hash c) := by
      rw [hg]; exact mem_okPathsWith items p c hpc
    have hne : getGroup (scanFold items).groups (get_file_hash c) ≠ [] := by
      intro h0; rw [h0] at hpm; cases hpm
    have hmem := mem_groups_of_getGroup_ne_nil _ _ hne
    refine ⟨getGroup (scanFold items).groups (get_file_hash c), hmem, hpm, ?_, ?_⟩
    · have hle : (getGroup (scanFold items).groups (get_file_hash c)).count p ≤ 1 := by
        rw [hg]
        exact le_trans (count_okPathsWith_le items _ p)
          (List.nodup_iff_count_le_one.mp hnd p)
      have hge : 0 < (getGroup (scanFold items).groups (get_file_hash c)).count p :=
        List.count_pos_iff.mpr hpm
      omega
    · intro h2 ps2 hm2 hp2
      obtain ⟨c2, hc2, hh2⟩ := hmemg h2 ps2 hm2 p hp2
      have hok : Except.ok c2 = Except.ok c :=
        snd_unique_of_nodup_fst items hnd p _ _ hc2 hpc
      have hcc : c2 = c := by injection hok
      have hh3 : h2 = get_file_hash c := by rw [← hh2, hcc]
      refine ⟨hh3, ?_⟩
      rw [hh3] at hm2
      exact snd_unique_of_nodup_fst (scanFold items).groups hkeys _ _ _ hm2 hmem

/-- A small example tree: two duplicate files, one distinct file, one
unreadable file, and a file inside an excluded directory. -/
def exampleTree : List FSEntry :=
  [FSEntry.dir "a" [FSEntry.file "x.txt" (Except.ok [104, 105])],
   FSEntry.dir "b" [FSEntry.file "y.txt" (Except.ok [104, 105])],
   FSEntry.file "z.txt" (Except.ok [119]),
   FSEntry.file "bad.txt" (Except.error "Permission denied"),
   FSEntry.dir ".git" [FSEntry.file "cfg" (Except.ok [104, 105])]]

theorem grouping_partitions_witness :
    ((walkDir defaultExcludeDirs "." exampleTree).map Prod.fst).Nodup ∧
    ((scanFold (walkDir defaultExcludeDirs "." exampleTree)).count
        = sumLens (scanFold (walkDir defaultExcludeDirs "." exampleTree)).groups ∧
    ((scanFold (walkDir defaultExcludeDirs "." exampleTree)).groups.map Prod.fst).Nodup ∧
    (∀ h ps, (h, ps) ∈ (scanFold (walkDir defaultExcludeDirs "." exampleTree)).groups →
      ∀ q ∈ ps, ∃ c, (q, Except.ok c) ∈ walkDir defaultExcludeDirs "." exampleTree ∧
        get_file_hash c = h) ∧
    (∀ p c, (p, Except.ok c) ∈ walkDir defaultExcludeDirs "." exampleTree →
      ∃ ps, (get_file_hash c, ps) ∈ (scanFold (walkDir defaultExcludeDirs "." exampleTree)).groups ∧
        p ∈ ps ∧ ps.count p = 1 ∧
        ∀ h2 ps2, (h2, ps2) ∈ (scanFold (walkDir defaultExcludeDirs "." exampleTree)).groups →
          p ∈ ps2 → h2 = get_file_hash c ∧ ps2 = ps)) := by
  have hnd : ((walkDir defaultExcludeDirs "." exampleTree).map Prod.fst).Nodup := by
    have h : walkDir defaultExcludeDirs "." exampleTree
        = [("./z.txt", Except.ok [119]), ("./bad.txt", Except.error "Permission denied"),
           ("./a/x.txt", Except.ok [104, 105]), ("./b/y.txt", Except.ok [104, 105])] := by
      simp [walkDir, walkSub, dirFiles, exampleTree, defaultExcludeDirs]
    rw [h]
    decide
  exact ⟨hnd, grouping_partitions defaultExcludeDirs "." exampleTree hnd⟩

theorem foldl_removeScanStep_groups (items : List (String × Except String (List Nat))) :
    ∀ (g : List (String × List String)) (nn : Nat) (es : List String),
      items.foldl removeScanStep g = (items.foldl scanStep ⟨g, nn, es⟩).groups := by
  induction items with
  | nil => intros; rfl
  | cons it rest ih =>
      intro g nn es
      obtain ⟨p2, c2⟩ := it
      cases c2 with
      | ok c =>
          simp only [List.foldl_cons, removeScanStep, scanStep]
          exact ih _ _ _
      | error e =>
          simp only [List.foldl_cons, removeScanStep, scanStep]
          exact ih _ _ _

/-- The hashing loops of the two tools build identical fingerprint groups. -/
theorem removeScan_eq (items : List (String × Except String (List Nat))) :
    removeScan items = (scanFold items).groups :=
  foldl_removeScanStep_groups items [] 0 []

/-- The filesystem-mutating events of a trace (everything except report
lines). -/
def mutations (tr : List Act) : List Act :=
  tr.filter fun a =>
    match a with
    | .print _ => false
    | _ => true

theorem mutations_append (t1 t2 : List Act) :
    mutations (t1 ++ t2) = mutations t1 ++ mutations t2 := by
  simp [mutations]

theorem mutations_processFile_dry (rf : String → Option String)
    (sf : String → String → Option String) (symlink : Bool) (k r : String) :
    mutations (processFile rf sf true symlink k r) = [] := by
  unfold processFile
  rw [if_pos rfl]
  cases symlink <;> rfl

theorem mutations_flatMap_nil {β : Type} (l : List β) (f : β → List Act)
    (hf : ∀ b ∈ l, mutations (f b) = []) : mutations (l.flatMap f) = [] := by
  induction l with
  | nil => rfl
  | cons b rest ih =>
      rw [List.flatMap_cons, mutations_append, hf b (List.mem_cons_self b rest),
        ih fun b2 hb2 => hf b2 (List.mem_cons_of_mem b hb2)]
      rfl

theorem mutations_processSet_dry (rf : String → Option String)
    (sf : String → String → Option String) (strategy : String) (symlink : Bool)
    (fp : String) (paths : List String) :
    mutations (processSet rf sf true strategy symlink fp paths) = [] := by
  simp only [processSet, mutations_append]
  rw [mutations_flatMap_nil _ _ fun r _ => mutations_processFile_dry rf sf symlink _ r]
  rfl

theorem all_print_of_mutations_nil (tr : List Act) (h : mutations tr = []) :
    ∀ a ∈ tr, ∃ line, a = Act.print line := by
  intro a ha
  cases a with
  | print line => exact ⟨line, rfl⟩
  | removed q =>
      have h2 : Act.removed q ∈ mutations tr := List.mem_filter.mpr ⟨ha, rfl⟩
      rw [h] at h2
      cases h2
  | linked rel q =>
      have h2 : Act.linked rel q ∈ mutations tr := List.mem_filter.mpr ⟨ha, rfl⟩
      rw [h] at h2
      cases h2

theorem foldl_fixed_of_all_print {σ : Type} (interp : σ → Act → σ)
    (hp : ∀ (s : σ) (line : String), interp s (Act.print line) = s) :
    ∀ (tr : List Act), (∀ a ∈ tr, ∃ line, a = Act.print line) → ∀ s : σ, tr.foldl interp s = s := by
  intro tr
  induction tr with
  | nil => intro _ s; rfl
  | cons a rest ih =>
      intro hall s
      obtain ⟨line, rfl⟩ := hall a (List.mem_cons_self a rest)
      rw [List.foldl_cons, hp s line]
      exact ih (fun b hb => hall b (List.mem_cons_of_mem _ hb)) s

/-- C3: with `dry_run` true (the default), `remove_duplicates` performs no
filesystem mutation whatever the symlink flag, strategy, oracles, or
duplicate sets: its trace contains no removal and no link-creation event, any
filesystem interpretation that is unchanged by printing is a fixed point of
the trace, and consequently a second dry run on the resulting filesystem
reports exactly what the first did. -/
theorem dry_run_no_mutation (rf : String → Option String)
    (sf : String → String → Option String) (excl : List String) (directory : String)
    (strategy : String) (symlink : Bool) (entries : List FSEntry) :
    mutations (remove_duplicates rf sf excl directory true strategy symlink entries) = [] ∧
    (∀ {σ : Type} (interp : σ → Act → σ) (s : σ),
      (∀ (s2 : σ) (line : String), interp s2 (Act.print line) = s2) →
      (remove_duplicates rf sf excl directory true strategy symlink entries).foldl interp s = s) ∧
    (∀ interp : List FSEntry → Act → List FSEntry,
      (∀ (es : List FSEntry) (line : String), interp es (Act.print line) = es) →
      remove_duplicates rf sf excl directory true strategy symlink
          ((remove_duplicates rf sf excl directory true strategy symlink entries).foldl
            interp entries)
        = remove_duplicates rf sf excl directory true strategy symlink entries) := by
  have hmut : mutations (remove_duplicates rf sf excl directory true strategy symlink entries)
      = [] := by
    simp only [remove_duplicates]
    split
    · rfl
    · exact mutations_flatMap_nil _ _ fun g _ =>
        mutations_processSet_dry rf sf strategy symlink g.1 g.2
  have hfix : ∀ {σ : Type} (interp : σ → Act → σ) (s : σ),
      (∀ (s2 : σ) (line : String), interp s2 (Act.print line) = s2) →
      (remove_duplicates rf sf excl directory true strategy symlink entries).foldl interp s
        = s := by
    intro σ interp s hp
    exact foldl_fixed_of_all_print interp hp _ (all_print_of_mutations_nil _ hmut) s
  refine ⟨hmut, fun {σ} => hfix, ?_⟩
  intro interp hp
  rw [hfix interp entries hp]

theorem dry_run_no_mutation_witness :
    (∀ (s2 : Nat) (line : String),
      (fun (s : Nat) (a : Act) =>
        match a with
        | Act.print _ => s
        | _ => s + 1) s2 (Act.print line) = s2) ∧
    (remove_duplicates (fun _ => none) (fun _ _ => none) defaultExcludeDirs "." true
        "keep_shortest_path" true exampleTree).foldl
      (fun (s : Nat) (a : Act) =>
        match a with
        | Act.print _ => s
        | _ => s + 1) 0 = 0 :=
  ⟨fun _ _ => rfl,
   (dry_run_no_mutation (fun _ => none) (fun _ _ => none) defaultExcludeDirs "."
      "keep_shortest_path" true exampleTree).2.1 _ 0 fun _ _ => rfl⟩

/-- C4: in live mode with the symlink flag, when deletion of a duplicate
succeeds but the subsequent symlink creation fails, the events for that file
are exactly the successful removal, its report line, and the error report
(printed by the shared `except OSError` handler): the error is reported, the
completed deletion is not rolled back — the only mutation is the removal and
no link is ever created at that path — and every other slated file before or
after it is still processed in order. -/
theorem symlink_failure_no_rollback (rf : String → Option String)
    (sf : String → String → Option String) (keepFile r e : String)
    (hrm : rf r = none) (hsl : sf (relpath keepFile (dirname r)) r = some e) :
    processFile rf sf false true keepFile r
        = [Act.removed r, Act.print ("  Removed: " ++ r),
           Act.print ("  Error removing " ++ r ++ ": " ++ e)] ∧
    mutations (processFile rf sf false true keepFile r) = [Act.removed r] ∧
    (∀ rel, Act.linked rel r ∉ processFile rf sf false true keepFile r) ∧
    ∀ pre post : List String,
      (pre ++ r :: post).flatMap (processFile rf sf false true keepFile)
        = pre.flatMap (processFile rf sf false true keepFile)
          ++ processFile rf sf false true keepFile r
          ++ post.flatMap (processFile rf sf false true keepFile) := by
  have heq : processFile rf sf false true keepFile r
      = [Act.removed r, Act.print ("  Removed: " ++ r),
         Act.print ("  Error removing " ++ r ++ ": " ++ e)] := by
    simp [processFile, hrm, hsl]
  refine ⟨heq, by rw [heq]; rfl, ?_, ?_⟩
  · intro rel
    rw [heq]
    simp
  · intro pre post
    rw [List.flatMap_append, List.flatMap_cons, List.append_assoc]

theorem symlink_failure_no_rollback_witness :
    (fun (_ : String) => (none : Option String)) "./b/y.txt" = none ∧
    (fun (_ _ : String) => (some "boom" : Option String))
        (relpath "./a/x.txt" (dirname "./b/y.txt")) "./b/y.txt" = some "boom" ∧
    processFile (fun _ => none) (fun _ _ => some "boom") false true "./a/x.txt" "./b/y.txt"
      = [Act.removed "./b/y.txt", Act.print "  Removed: ./b/y.txt",
         Act.print "  Error removing ./b/y.txt: boom"] := by
  refine ⟨rfl, rfl, ?_⟩
  have h := symlink_failure_no_rollback (fun _ => none) (fun _ _ => some "boom")
    "./a/x.txt" "./b/y.txt" "boom" rfl rfl
  rw [h.1]
  decide

theorem resolve_keep_mem (strategy : String) (ps : List String) (hne : ps ≠ []) :
    (resolveStrategy strategy ps).1 ∈ ps := by
  simp only [resolveStrategy]
  by_cases hs : strategy = "keep_shortest_path"
  · rw [if_pos hs]
    obtain ⟨k, t, hkt⟩ : ∃ k t, sortByLen ps = k :: t := by
      cases h : sortByLen ps with
      | nil => exact absurd ((h ▸ sortByLen_perm ps).symm.eq_nil) hne
      | cons a b => exact ⟨a, b, rfl⟩
    rw [hkt]
    show k ∈ ps
    have hk : k ∈ sortByLen ps := by rw [hkt]; exact List.mem_cons_self k t
    exact (sortByLen_perm ps).mem_iff.mp hk
  · rw [if_neg hs]
    cases ps with
    | nil => exact absurd rfl hne
    | cons a t => exact List.mem_cons_self a t

theorem resolve_remove_mem (strategy : String) (ps : List String) :
    ∀ q ∈ (resolveStrategy strategy ps).2, q ∈ ps := by
  intro q hq
  simp only [resolveStrategy] at hq
  by_cases hs : strategy = "keep_shortest_path"
  · rw [if_pos hs] at hq
    exact (sortByLen_perm ps).mem_iff.mp (List.mem_of_mem_tail hq)
  · rw [if_neg hs] at hq
    exact List.mem_of_mem_tail hq

theorem mem_processFile_cases (rf : String → Option String)
    (sf : String → String → Option String) (dryRun symlink : Bool) (k r : String)
    (a : Act) (ha : a ∈ processFile rf sf dryRun symlink k r) :
    (∃ line, a = Act.print line) ∨ a = Act.removed r ∨ ∃ rel, a = Act.linked rel r := by
  unfold processFile at ha
  by_cases hd : dryRun = true
  · rw [if_pos hd] at ha
    by_cases hs : symlink = true
    · rw [if_pos hs] at ha
      simp only [List.mem_singleton] at ha
      exact Or.inl ⟨_, ha⟩
    · rw [if_neg hs] at ha
      simp only [List.mem_singleton] at ha
      exact Or.inl ⟨_, ha⟩
  · rw [if_neg hd] at ha
    cases hrf : rf r with
    | some e =>
        rw [hrf] at ha
        simp only [List.mem_singleton] at ha
        exact Or.inl ⟨_, ha⟩
    | none =>
        rw [hrf] at ha
        simp only [List.cons_append, List.nil_append, List.mem_cons] at ha
        rcases ha with ha | ha | ha
        · exact Or.inr (Or.inl ha)
        · exact Or.inl ⟨_, ha⟩
        · by_cases hs : symlink = true
          · rw [if_pos hs] at ha
            cases hsf : sf (relpath k (dirname r)) r with
            | some e2 =>
                rw [hsf] at ha
                simp only [List.mem_singleton] at ha
                exact Or.inl ⟨_, ha⟩
            | none =>
                rw [hsf] at ha
                simp only [List.mem_cons, List.not_mem_nil, or_false] at ha
                rcases ha with ha | ha
                · exact Or.inr (Or.inr ⟨_, ha⟩)
                · exact Or.inl ⟨_, ha⟩
          · rw [if_neg hs] at ha
            cases ha

theorem mem_remove_duplicates_cases (rf : String → Option String)
    (sf : String → String → Option String) (excl : List String) (directory : String)
    (dryRun : Bool) (strategy : String) (symlink : Bool) (entries : List FSEntry) (a : Act)
    (ha : a ∈ remove_duplicates rf sf excl directory dryRun strategy symlink entries) :
    (∃ line, a = Act.print line) ∨
    ∃ g ∈ dupOf (removeScan (walkDir excl directory entries)),
      ∃ r ∈ (resolveStrategy strategy g.2).2,
        a = Act.removed r ∨ ∃ rel, a = Act.linked rel r := by
  simp only [remove_duplicates] at ha
  split at ha
  · simp only [List.mem_singleton] at ha
    exact Or.inl ⟨_, ha⟩
  · rw [List.mem_flatMap] at ha
    obtain ⟨g, hg, ha⟩ := ha
    simp only [processSet] at ha
    rcases List.mem_append.mp ha with ha | ha
    · rcases List.mem_append.mp ha with ha | ha
      · simp only [List.mem_cons, List.not_mem_nil, or_false] at ha
        rcases ha with ha | ha
        · exact Or.inl ⟨_, ha⟩
        · exact Or.inl ⟨_, ha⟩
      · rw [List.mem_flatMap] at ha
        obtain ⟨r, hr, ha⟩ := ha
        rcases mem_processFile_cases rf sf dryRun symlink _ r a ha with h1 | h1 | h1
        · exact Or.inl h1
        · exact Or.inr ⟨g, hg, r, hr, Or.inl h1⟩
        · exact Or.inr ⟨g, hg, r, hr, Or.inr h1⟩
    · simp only [List.mem_singleton] at ha
      exact Or.inl ⟨_, ha⟩

/-- C5: no per-file error ever aborts the run. Whatever failures the oracles
inject, the scan loop's final state logs exactly one inline error line per
unreadable walked file and counts every readable one (files after an error
are still processed), and the removal loop's trace still contains, in place,
the events of every slated file of every duplicate set. -/
theorem no_per_file_error_aborts (rf : String → Option String)
    (sf : String → String → Option String) (excl : List String) (directory : String)
    (dryRun : Bool) (strategy : String) (symlink : Bool) (entries : List FSEntry) :
    (scanFold (walkDir excl directory entries)).errors = errLines (walkDir excl directory entries) ∧
    (scanFold (walkDir excl directory entries)).count = okCount (walkDir excl directory entries) ∧
    ∀ g ∈ dupOf (removeScan (walkDir excl directory entries)),
      ∀ r ∈ (resolveStrategy strategy g.2).2,
        ∃ pre post, remove_duplicates rf sf excl directory dryRun strategy symlink entries
          = pre ++ processFile rf sf dryRun symlink (resolveStrategy strategy g.2).1 r ++ post := by
  refine ⟨?_, ?_, ?_⟩
  · show (List.foldl scanStep ⟨[], 0, []⟩ (walkDir excl directory entries)).errors = _
    rw [scanFold_errors (walkDir excl directory entries) ⟨[], 0, []⟩]
    rfl
  · show (List.foldl scanStep ⟨[], 0, []⟩ (walkDir excl directory entries)).count = _
    rw [scanFold_count (walkDir excl directory entries) ⟨[], 0, []⟩]
    simp
  · intro g hg r hr
    obtain ⟨l1, l2, hl⟩ := List.append_of_mem hg
    obtain ⟨s1, s2, hs⟩ := List.append_of_mem hr
    have hne : (dupOf (removeScan (walkDir excl directory entries))).isEmpty = false := by
      rw [hl]
      cases l1 <;> rfl
    refine ⟨(l1.flatMap fun g2 => processSet rf sf dryRun strategy symlink g2.1 g2.2)
        ++ ([Act.print ("For duplicate set (hash: " ++ g.1 ++ "):"),
             Act.print ("  Keeping: " ++ (resolveStrategy strategy g.2).1)]
          ++ s1.flatMap (processFile rf sf dryRun symlink (resolveStrategy strategy g.2).1)),
      (s2.flatMap (processFile rf sf dryRun symlink (resolveStrategy strategy g.2).1)
          ++ [Act.print ""])
        ++ (l2.flatMap fun g2 => processSet rf sf dryRun strategy symlink g2.1 g2.2), ?_⟩
    simp only [remove_duplicates, hne, Bool.false_eq_true, if_false]
    rw [hl, List.flatMap_append, List.flatMap_cons]
    simp only [processSet]
    rw [hs, List.flatMap_append, List.flatMap_cons]
    simp only [List.append_assoc, List.cons_append, List.nil_append]

/-- A minimal tree with one duplicate pair. -/
def pairTree : List FSEntry :=
  [FSEntry.dir "a" [FSEntry.file "x.txt" (Except.ok [104])],
   FSEntry.dir "b" [FSEntry.file "y.txt" (Except.ok [104])]]

theorem no_per_file_error_aborts_witness :
    ((get_file_hash [104], ["./a/x.txt", "./b/y.txt"])
        ∈ dupOf (removeScan (walkDir defaultExcludeDirs "." pairTree))) ∧
    "./b/y.txt" ∈ (resolveStrategy "keep_first" ["./a/x.txt", "./b/y.txt"]).2 ∧
    ∃ pre post,
      remove_duplicates (fun _ => some "EACCES") (fun _ _ => some "boom") defaultExcludeDirs "."
          false "keep_first" true pairTree
        = pre ++ processFile (fun _ => some "EACCES") (fun _ _ => some "boom") false true
            (resolveStrategy "keep_first" ["./a/x.txt", "./b/y.txt"]).1 "./b/y.txt" ++ post := by
  have hd : dupOf (removeScan (walkDir defaultExcludeDirs "." pairTree))
      = [(get_file_hash [104], ["./a/x.txt", "./b/y.txt"])] := by
    simp [removeScan, walkDir, walkSub, dirFiles, pairTree, defaultExcludeDirs, removeScanStep,
      addPath, dupOf]
  have hg : (get_file_hash [104], ["./a/x.txt", "./b/y.txt"])
      ∈ dupOf (removeScan (walkDir defaultExcludeDirs "." pairTree)) := by
    rw [hd]
    exact List.mem_singleton.mpr rfl
  have hr : "./b/y.txt" ∈ (resolveStrategy "keep_first" ["./a/x.txt", "./b/y.txt"]).2 := by
    simp [resolveStrategy]
  exact ⟨hg, hr, (no_per_file_error_aborts (fun _ => some "EACCES") (fun _ _ => some "boom")
    defaultExcludeDirs "." false "keep_first" true pairTree).2.2 _ hg _ hr⟩

/-- C2 (amended): an unreadable file is skipped, excluded from all further
processing in both tools, and the run continues; but only the scan tool logs
an inline error to its report — the remove tool's hashing loop swallows the
exception with a bare `continue` and logs nothing (see the counterexample).
The skipped file joins no fingerprint group of either tool, is never the kept
file of a duplicate set, is never slated for removal, and no removal or
link-creation event ever targets it. -/
theorem unreadable_file_skipped (excl : List String) (directory : String)
    (entries : List FSEntry) (p e : String)
    (hw : (p, Except.error e) ∈ walkDir excl directory entries)
    (hnd : ((walkDir excl directory entries).map Prod.fst).Nodup) :
    ("Error accessing " ++ p ++ ": " ++ e) ∈ find_duplicates excl directory entries ∧
    (∀ h ps, (h, ps) ∈ (scanFold (walkDir excl directory entries)).groups → p ∉ ps) ∧
    (∀ h ps, (h, ps) ∈ removeScan (walkDir excl directory entries) → p ∉ ps) ∧
    (∀ strategy : String, ∀ g ∈ dupOf (removeScan (walkDir excl directory entries)),
      (resolveStrategy strategy g.2).1 ≠ p ∧ p ∉ (resolveStrategy strategy g.2).2) ∧
    ∀ (rf : String → Option String) (sf : String → String → Option String)
      (dryRun : Bool) (strategy : String) (symlink : Bool),
      Act.removed p ∉ remove_duplicates rf sf excl directory dryRun strategy symlink entries ∧
      ∀ rel, Act.linked rel p
        ∉ remove_duplicates rf sf excl directory dryRun strategy symlink entries := by
  have hgroups : ∀ h ps, (h, ps) ∈ (scanFold (walkDir excl directory entries)).groups →
      p ∉ ps := by
    intro h ps hm hp
    rcases mem_scanFold_groups (walkDir excl directory entries) ⟨[], 0, []⟩ h ps hm p hp with
      ⟨c, hc, -⟩ | ⟨ps2, hp2, -⟩
    · cases snd_unique_of_nodup_fst (walkDir excl directory entries) hnd p _ _ hc hw
    · cases hp2
  have hrg : ∀ h ps, (h, ps) ∈ removeScan (walkDir excl directory entries) → p ∉ ps := by
    rw [removeScan_eq]
    exact hgroups
  have hdup : ∀ g, g ∈ dupOf (removeScan (walkDir excl directory entries)) → p ∉ g.2 := by
    intro g hm
    exact hrg g.1 g.2 (List.mem_of_mem_filter hm)
  have hlen : ∀ g, g ∈ dupOf (removeScan (walkDir excl directory entries)) → g.2 ≠ [] := by
    intro g hm
    have := List.of_mem_filter hm
    simp only [decide_eq_true_eq] at this
    intro h0
    rw [h0] at this
    simp at this
  refine ⟨?_, hgroups, hrg, ?_, ?_⟩
  · have herr : ("Error accessing " ++ p ++ ": " ++ e)
        ∈ (scanFold (walkDir excl directory entries)).errors := by
      show _ ∈ (List.foldl scanStep ⟨[], 0, []⟩ (walkDir excl directory entries)).errors
      rw [scanFold_errors (walkDir excl directory entries) ⟨[], 0, []⟩, List.nil_append]
      exact List.mem_filterMap.mpr ⟨(p, Except.error e), hw, rfl⟩
    simp only [find_duplicates]
    exact List.mem_append_left _ (List.mem_append_left _ (List.mem_cons_of_mem _ herr))
  · intro strategy g hg
    constructor
    · intro hk
      exact hdup g hg (hk ▸ resolve_keep_mem strategy g.2 (hlen g hg))
    · intro hp
      exact hdup g hg (resolve_remove_mem strategy g.2 p hp)
  · intro rf sf dryRun strategy symlink
    constructor
    · intro ha
      rcases mem_remove_duplicates_cases rf sf excl directory dryRun strategy symlink entries
        _ ha with ⟨line, h1⟩ | ⟨g, hg, r, hr, h1 | ⟨rel, h1⟩⟩
      · cases h1
      · have : p = r := by injection h1
        exact hdup g hg (this ▸ resolve_remove_mem strategy g.2 r hr)
      · cases h1
    · intro rel ha
      rcases mem_remove_duplicates_cases rf sf excl directory dryRun strategy symlink entries
        _ ha with ⟨line, h1⟩ | ⟨g, hg, r, hr, h1 | ⟨rel2, h1⟩⟩
      · cases h1
      · cases h1
      · have : p = r := by injection h1
        exact hdup g hg (this ▸ resolve_remove_mem strategy g.2 r hr)

theorem unreadable_file_skipped_witness :
    ("./bad.txt", Except.error "Permission denied")
        ∈ walkDir defaultExcludeDirs "." exampleTree ∧
    ((walkDir defaultExcludeDirs "." exampleTree).map Prod.fst).Nodup ∧
    ("Error accessing ./bad.txt: Permission denied"
        ∈ find_duplicates defaultExcludeDirs "." exampleTree) ∧
    (∀ h ps, (h, ps) ∈ (scanFold (walkDir defaultExcludeDirs "." exampleTree)).groups →
      "./bad.txt" ∉ ps) := by
  have hwalk : walkDir defaultExcludeDirs "." exampleTree
      = [("./z.txt", Except.ok [119]), ("./bad.txt", Except.error "Permission denied"),
         ("./a/x.txt", Except.ok [104, 105]), ("./b/y.txt", Except.ok [104, 105])] := by
    simp [walkDir, walkSub, dirFiles, exampleTree, defaultExcludeDirs]
  have hw : ("./bad.txt", Except.error "Permission denied")
      ∈ walkDir defaultExcludeDirs "." exampleTree := by
    rw [hwalk]
    exact List.mem_cons_of_mem _ (List.mem_cons_self _ _)
  have hnd : ((walkDir defaultExcludeDirs "." exampleTree).map Prod.fst).Nodup := by
    rw [hwalk]
    decide
  have h := unreadable_file_skipped defaultExcludeDirs "." exampleTree "./bad.txt"
    "Permission denied" hw hnd
  exact ⟨hw, hnd, h.1, h.2.1⟩

/-- C2 is false as stated for the remove tool: on a tree whose single file
raises `PermissionError`, the walk yields the file and the scan tool's
report logs an inline error for it, but the remove tool's entire output is
the one line `No duplicate files found.` — it logs no error at all. -/
theorem remove_tool_logs_no_access_error :
    ("./secret.txt", Except.error "Permission denied")
        ∈ walkDir defaultExcludeDirs "."
            [FSEntry.file "secret.txt" (Except.error "Permission denied")] ∧
    ("Error accessing ./secret.txt: Permission denied"
        ∈ find_duplicates defaultExcludeDirs "."
            [FSEntry.file "secret.txt" (Except.error "Permission denied")]) ∧
    remove_duplicates (fun _ => none) (fun _ _ => none) defaultExcludeDirs "." true
        "keep_shortest_path" false [FSEntry.file "secret.txt" (Except.error "Permission denied")]
      = [Act.print "No duplicate files found."] := by
  have hwalk : walkDir defaultExcludeDirs "."
        [FSEntry.file "secret.txt" (Except.error "Permission denied")]
      = [("./secret.txt", Except.error "Permission denied")] := by
    simp [walkDir, walkSub, dirFiles]
  refine ⟨by rw [hwalk]; exact List.mem_singleton.mpr rfl, ?_, ?_⟩
  · simp only [find_duplicates, hwalk]
    simp [scanFold, scanStep, dupOf]
  · simp only [remove_duplicates, hwalk]
    simp [removeScan, removeScanStep, dupOf]

/-- C9: for every strategy string other than `keep_shortest_path` — not just
`keep_first` — the dispatch falls through to keep-first behaviour: the list
stays in discovery order, the first-discovered path is kept, the rest are
removed, and the whole run is the run with strategy `keep_first`. -/
theorem strategy_fallthrough (s : String) (hs : s ≠ "keep_shortest_path") :
    (∀ paths, resolveStrategy s paths = (paths.headD "", paths.tail)) ∧
    (∀ paths, resolveStrategy s paths = resolveStrategy "keep_first" paths) ∧
    ∀ (rf : String → Option String) (sf : String → String → Option String)
      (excl : List String) (directory : String) (dryRun : Bool) (symlink : Bool)
      (entries : List FSEntry),
      remove_duplicates rf sf excl directory dryRun s symlink entries
        = remove_duplicates rf sf excl directory dryRun "keep_first" symlink entries := by
  have h1 : ∀ paths, resolveStrategy s paths = (paths.headD "", paths.tail) := by
    intro paths
    simp [resolveStrategy, hs]
  have h2 : ∀ paths, resolveStrategy s paths = resolveStrategy "keep_first" paths := by
    intro paths
    rw [h1]
    simp [resolveStrategy]
  refine ⟨h1, h2, ?_⟩
  intro rf sf excl directory dryRun symlink entries
  simp only [remove_duplicates, processSet, h2]

theorem strategy_fallthrough_witness :
    ("totally_bogus" : String) ≠ "keep_shortest_path" ∧
    resolveStrategy "totally_bogus" ["./b/xx", "./a/y"] = ("./b/xx", ["./a/y"]) := by
  refine ⟨by decide, ?_⟩
  rw [(strategy_fallthrough "totally_bogus" (by decide)).1 ["./b/xx", "./a/y"]]
  rfl

/-- C7: the effective exclusion set of either entry point is the built-in
default list (version control `.git`, dependency cache `node_modules`,
bytecode cache `__pycache__`) with the user-supplied `--exclude` names
appended; the defaults are never replaced, so each default name is excluded
whatever the user passes. -/
theorem exclude_defaults_kept :
    (∀ u, effectiveExcludes (some u) = defaultExcludeDirs ++ u) ∧
    effectiveExcludes none = defaultExcludeDirs ∧
    ∀ o, ".git" ∈ effectiveExcludes o ∧ "node_modules" ∈ effectiveExcludes o ∧
      "__pycache__" ∈ effectiveExcludes o := by
  refine ⟨fun u => rfl, rfl, ?_⟩
  intro o
  cases o with
  | none => exact ⟨by decide, by decide, by decide⟩
  | some u =>
      refine ⟨?_, ?_, ?_⟩ <;>
        exact List.mem_append_left u (by decide)
